import Mathlib

/-!
# Verification of the 3D audio visualizer's morph pipeline

A shallow embedding of the audio-reactive geometry pipeline of `src/main.js`:
the spectral feature extraction in `induceChange`, the linear remapping
`modulateSignal`, the per-vertex morph in `morphMesh`, and the per-frame
rotation in `rotateMesh`.  Spectrum samples are modelled as natural numbers
(the analyser delivers bytes 0–255) and the derived feature arithmetic over
`ℚ`; the geometric part (vertex positions, noise samples, the `0.8` power
curve) lives over `ℝ`.
-/

namespace AudioVis

/-- Embedding of `getMax` of `src/main.js`: starts from `0` and folds
`Math.max(array[i], max)` over the array. -/
def getMax (array : List ℕ) : ℕ :=
  array.foldl (fun m a => Nat.max a m) 0

/-- Embedding of `getAverage` of `src/main.js`: the sum of the samples
divided by the array length (floating-point division in the source, exact
rational division here; an empty array gives `0/0`, which the total `ℚ`
division sends to `0` while the source produces NaN — see
`bassFeatureChecked` for where that matters). -/
def getAverage (array : List ℕ) : ℚ :=
  (array.sum : ℚ) / array.length

/-- The bass band of `induceChange`: `dataArray.slice(0, dataArray.length / 2 - 1)`. -/
def bassHalf (frame : List ℕ) : List ℕ :=
  frame.take (frame.length / 2 - 1)

/-- The treble band of `induceChange`:
`dataArray.slice(dataArray.length / 2 - 1, dataArray.length - 1)`. -/
def trebHalf (frame : List ℕ) : List ℕ :=
  (frame.drop (frame.length / 2 - 1)).take
    ((frame.length - 1) - (frame.length / 2 - 1))

/-- The bass feature passed to `morphMesh`: `bassMax / bassHalf.length`. -/
def bassFeature (frame : List ℕ) : ℚ :=
  (getMax (bassHalf frame) : ℚ) / (bassHalf frame).length

/-- The treble feature passed to `morphMesh`: `trebAvg / trebHalf.length`. -/
def trebleFeature (frame : List ℕ) : ℚ :=
  getAverage (trebHalf frame) / (trebHalf frame).length

/-- Marks the floating-point divisions hidden in `bassFeature` when the bass
band is empty: in the source `bassMax / bassHalf.length` is then `0 / 0`,
i.e. NaN, and no rational value exists; `none` records that case. -/
def bassFeatureChecked (frame : List ℕ) : Option ℚ :=
  if (bassHalf frame).length = 0 then none else some (bassFeature frame)

/-- Embedding of `modulateSignal` of `src/main.js`, polymorphic over the
field so the same definition serves the exact `ℚ` computations and the
real-valued morph step. -/
def modulateSignal {K : Type} [Field K] (signal min max outMin outMax : K) : K :=
  let fraction := (signal - min) / (max - min)
  let d := outMax - outMin
  outMin + fraction * d

/-- Marks the floating-point division hidden in `modulateSignal` when the
input range has zero width: `(signal - min) / (max - min)` is then a
division by zero (NaN or ±Infinity in the source); `none` records that
case. -/
def modulateSignalChecked (signal min max outMin outMax : ℚ) : Option ℚ :=
  if max - min = 0 then none
  else some (modulateSignal signal min max outMin outMax)

/-- The treble channel of `morphMesh`:
`modulateSignal(trebleAvg, 0, 1, 0, 4)` (no power shaping). -/
def trebleFrequencyOf {K : Type} [Field K] (trebleAvg : K) : K :=
  modulateSignal trebleAvg 0 1 0 4

/-- The bass channel of `morphMesh`: `bassMax = Math.pow(bassMax, .8)`
followed by `modulateSignal(bassMax, 0, 1, 0, 8)`. -/
noncomputable def bassFrequencyOf (bassMax : ℝ) : ℝ :=
  modulateSignal (Real.rpow bassMax 0.8) 0 1 0 8

/-! ## Geometry: vertices, noise sampling and the morph step -/

/-- A 3D vertex position, as manipulated by `morphMesh` through
`THREE.Vector3`. -/
structure Vec3 where
  x : ℝ
  y : ℝ
  z : ℝ

/-- `THREE.Vector3.multiplyScalar` (componentwise scaling). -/
def Vec3.scale (c : ℝ) (v : Vec3) : Vec3 :=
  ⟨c * v.x, c * v.y, c * v.z⟩

/-- Squared Euclidean length of a vertex. -/
def Vec3.normSq (v : Vec3) : ℝ :=
  v.x ^ 2 + v.y ^ 2 + v.z ^ 2

/-- Euclidean length (`THREE.Vector3.length`). -/
noncomputable def Vec3.norm (v : Vec3) : ℝ :=
  Real.sqrt v.normSq

/-- `THREE.Vector3.normalize`: division by the length.  On the zero vector
the source divides by `length || 1` and returns the zero vector again; here
`(0 : ℝ)⁻¹ = 0` yields the same zero vector. -/
noncomputable def Vec3.normalize (v : Vec3) : Vec3 :=
  Vec3.scale v.norm⁻¹ v

/-- The fixed displacement amplitude of `morphMesh` (`const amplitude = 5`). -/
def amplitude : ℝ := 5

/-- The noise time-rate factor of `morphMesh` (`const rf = 0.00001`). -/
def rf : ℝ := 0.00001

/-- The noise sample taken by `morphMesh` at a (normalized) vertex `v`:
`noise(v.x + time*rf*4, v.y + time*rf*6, v.z + time*rf*7)`. -/
def noiseAt (noise : ℝ → ℝ → ℝ → ℝ) (time : ℝ) (v : Vec3) : ℝ :=
  noise (v.x + time * rf * 4) (v.y + time * rf * 6) (v.z + time * rf * 7)

/-- The scalar distance computed by `morphMesh` for one vertex:
`(6 + bassFrequency) + noiseVal * amplitude * trebleFrequency * 2`. -/
def distanceFormula (bassFrequency trebleFrequency noiseVal : ℝ) : ℝ :=
  (6 + bassFrequency) + noiseVal * amplitude * trebleFrequency * 2

/-- The body of the vertex loop of `morphMesh` for one vertex, with the
noise field abstracted as a function argument: normalize the current
position, sample the noise at the normalized position plus the time
offsets, compute the distance and rescale. -/
noncomputable def morphVertex (noise : ℝ → ℝ → ℝ → ℝ)
    (bassFrequency trebleFrequency time : ℝ) (p : Vec3) : Vec3 :=
  let vertex := p.normalize
  let n := noiseAt noise time vertex * amplitude * trebleFrequency * 2
  let distance := (6 + bassFrequency) + n
  Vec3.scale distance vertex

/-- One vertex of `morphMesh` starting from the raw features handed over by
`induceChange`: the bass feature is power-shaped and both features are
modulated before the vertex loop runs. -/
noncomputable def morphVertexOfFeatures (noise : ℝ → ℝ → ℝ → ℝ)
    (bassMax trebleAvg time : ℝ) (p : Vec3) : Vec3 :=
  morphVertex noise (bassFrequencyOf bassMax) (trebleFrequencyOf trebleAvg) time p

/-! ## The per-frame scheduler state -/

/-- The mutable state touched by one animation tick: the mesh's vertex
positions and its three rotation angles. -/
structure MeshState where
  positions : List Vec3
  rotX : ℝ
  rotY : ℝ
  rotZ : ℝ

/-- Embedding of `rotateMesh`: `rotation.y += .005; rotation.z -= .001;
rotation.x += .003`. -/
def rotateMesh (s : MeshState) : MeshState :=
  { s with
    rotY := s.rotY + 0.005
    rotZ := s.rotZ - 0.001
    rotX := s.rotX + 0.003 }

/-- Embedding of `morphMesh` over the whole vertex buffer. -/
noncomputable def morphMesh (noise : ℝ → ℝ → ℝ → ℝ)
    (bassMax trebleAvg time : ℝ) (s : MeshState) : MeshState :=
  { s with
    positions := s.positions.map (morphVertexOfFeatures noise bassMax trebleAvg time) }

/-- Embedding of `induceChange`: rotate first, return early when the
playback flag is false, otherwise extract the two features from the current
spectrum frame and morph. -/
noncomputable def induceChange (playing : Bool) (noise : ℝ → ℝ → ℝ → ℝ)
    (frame : List ℕ) (time : ℝ) (s : MeshState) : MeshState :=
  let s1 := rotateMesh s
  if playing then
    morphMesh noise ((bassFeature frame : ℚ) : ℝ) ((trebleFeature frame : ℚ) : ℝ) time s1
  else s1

/-! ## Basic lemmas about the embedded vector operations -/

theorem Vec3.scale_scale (c d : ℝ) (v : Vec3) :
    Vec3.scale c (Vec3.scale d v) = Vec3.scale (c * d) v := by
  simp [Vec3.scale, mul_assoc]

theorem Vec3.scale_one (v : Vec3) : Vec3.scale 1 v = v := by
  simp [Vec3.scale]

theorem Vec3.normSq_nonneg (v : Vec3) : 0 ≤ v.normSq := by
  simp only [Vec3.normSq]
  positivity

theorem Vec3.norm_nonneg (v : Vec3) : 0 ≤ v.norm :=
  Real.sqrt_nonneg _

theorem Vec3.normSq_scale (c : ℝ) (v : Vec3) :
    (Vec3.scale c v).normSq = c ^ 2 * v.normSq := by
  simp only [Vec3.scale, Vec3.normSq]
  ring

theorem Vec3.norm_scale (c : ℝ) (v : Vec3) :
    (Vec3.scale c v).norm = |c| * v.norm := by
  rw [Vec3.norm, Vec3.normSq_scale, Real.sqrt_mul (sq_nonneg c),
    Real.sqrt_sq_eq_abs, Vec3.norm]

theorem Vec3.normSq_eq_zero (v : Vec3) : v.normSq = 0 ↔ v = ⟨0, 0, 0⟩ := by
  constructor
  · intro h
    simp only [Vec3.normSq] at h
    have hx : v.x = 0 := by nlinarith [sq_nonneg v.x, sq_nonneg v.y, sq_nonneg v.z]
    have hy : v.y = 0 := by nlinarith [sq_nonneg v.x, sq_nonneg v.y, sq_nonneg v.z]
    have hz : v.z = 0 := by nlinarith [sq_nonneg v.x, sq_nonneg v.y, sq_nonneg v.z]
    cases v
    simp_all
  · intro h
    subst h
    simp [Vec3.normSq]

theorem Vec3.norm_eq_zero (v : Vec3) : v.norm = 0 ↔ v = ⟨0, 0, 0⟩ := by
  rw [Vec3.norm, Real.sqrt_eq_zero (Vec3.normSq_nonneg v), Vec3.normSq_eq_zero]

theorem Vec3.norm_pos (v : Vec3) (hv : v ≠ ⟨0, 0, 0⟩) : 0 < v.norm := by
  rcases lt_or_eq_of_le (Vec3.norm_nonneg v) with h | h
  · exact h
  · exact absurd ((Vec3.norm_eq_zero v).mp h.symm) hv

theorem Vec3.norm_normalize (v : Vec3) (hv : v ≠ ⟨0, 0, 0⟩) :
    v.normalize.norm = 1 := by
  have hpos := Vec3.norm_pos v hv
  rw [Vec3.normalize, Vec3.norm_scale, abs_inv, abs_of_pos hpos,
    inv_mul_cancel₀ (ne_of_gt hpos)]

theorem Vec3.normalize_scale (c : ℝ) (v : Vec3) (hc : 0 < c) :
    (Vec3.scale c v).normalize = v.normalize := by
  rw [Vec3.normalize, Vec3.norm_scale, abs_of_pos hc, Vec3.scale_scale]
  have h : (c * v.norm)⁻¹ * c = v.norm⁻¹ := by
    rw [mul_inv, mul_comm, ← mul_assoc, mul_inv_cancel₀ (ne_of_gt hc), one_mul]
  rw [h, Vec3.normalize]

/-! ## Basic lemmas about the spectral pipeline -/

theorem length_bassHalf (frame : List ℕ) :
    (bassHalf frame).length = frame.length / 2 - 1 := by
  simp only [bassHalf, List.length_take]
  omega

theorem length_trebHalf (frame : List ℕ) (h2 : 2 ≤ frame.length)
    (he : frame.length % 2 = 0) :
    (trebHalf frame).length = frame.length / 2 := by
  simp only [trebHalf, List.length_take, List.length_drop]
  omega

theorem foldl_max_le (l : List ℕ) (m : ℕ) :
    ∀ acc, acc ≤ m → (∀ a ∈ l, a ≤ m) →
      l.foldl (fun b a => Nat.max a b) acc ≤ m := by
  induction l with
  | nil => intro acc hacc _; simpa using hacc
  | cons b bs ih =>
    intro acc hacc hb
    simp only [List.foldl_cons]
    refine ih _ ?_ (fun a ha => hb a (by simp [ha]))
    exact Nat.max_le.mpr ⟨hb b (by simp), hacc⟩

theorem getMax_le (l : List ℕ) (m : ℕ) (h : ∀ a ∈ l, a ≤ m) :
    getMax l ≤ m :=
  foldl_max_le l m 0 (Nat.zero_le m) h

theorem foldl_max_replicate (c : ℕ) :
    ∀ n acc, (List.replicate (n + 1) c).foldl (fun b a => Nat.max a b) acc =
      Nat.max c acc := by
  intro n
  induction n with
  | zero => intro acc; simp
  | succ k ih =>
    intro acc
    rw [List.replicate_succ, List.foldl_cons, ih]
    simp only [Nat.max_def]
    split_ifs <;> omega

theorem getMax_replicate (n c : ℕ) (hn : 0 < n) :
    getMax (List.replicate n c) = c := by
  obtain ⟨k, rfl⟩ : ∃ k, n = k + 1 := ⟨n - 1, by omega⟩
  rw [getMax, foldl_max_replicate]
  simp only [Nat.max_def]
  split_ifs <;> omega

theorem getAverage_nonneg (l : List ℕ) : 0 ≤ getAverage l := by
  rw [getAverage]
  positivity

theorem getAverage_le (l : List ℕ) (m : ℕ) (h : ∀ a ∈ l, a ≤ m) :
    getAverage l ≤ m := by
  rcases Nat.eq_zero_or_pos l.length with h0 | hpos
  · have hl : l = [] := List.length_eq_zero.mp h0
    subst hl
    simp [getAverage]
  · have hsum : l.sum ≤ l.length * m := by
      simpa [smul_eq_mul] using List.sum_le_card_nsmul l m h
    rw [getAverage, div_le_iff₀ (by exact_mod_cast hpos)]
    calc (l.sum : ℚ) ≤ (l.length * m : ℕ) := by exact_mod_cast hsum
    _ = (m : ℚ) * l.length := by push_cast; ring

theorem getAverage_replicate (n c : ℕ) (hn : 0 < n) :
    getAverage (List.replicate n c) = c := by
  rw [getAverage, List.sum_replicate, List.length_replicate, smul_eq_mul]
  have hn' : (n : ℚ) ≠ 0 := by exact_mod_cast Nat.pos_iff_ne_zero.mp hn
  push_cast
  field_simp

theorem bassHalf_replicate (N c : ℕ) :
    bassHalf (List.replicate N c) = List.replicate (N / 2 - 1) c := by
  rw [bassHalf, List.length_replicate, List.take_replicate,
    Nat.min_eq_left (by omega)]

theorem trebHalf_replicate (N c : ℕ) (h2 : 2 ≤ N) (he : N % 2 = 0) :
    trebHalf (List.replicate N c) = List.replicate (N / 2) c := by
  rw [trebHalf, List.length_replicate, List.drop_replicate, List.take_replicate,
    Nat.min_eq_left (by omega)]
  congr 1
  omega

theorem morphVertex_eq_scale (noise : ℝ → ℝ → ℝ → ℝ)
    (bF tF time : ℝ) (p : Vec3) :
    morphVertex noise bF tF time p =
      Vec3.scale (distanceFormula bF tF (noiseAt noise time p.normalize)) p.normalize := by
  rfl

/-! ## Claim theorems -/

/-- C4: `modulateSignal` is the unclamped linear remap
`outMin + ((signal - inMin)/(inMax - inMin)) * (outMax - outMin)`: it maps
`0 ↦ outMin` and `1 ↦ outMax` on the unit input range, is monotone in the
signal when `outMin ≤ outMax`, and extrapolates strictly beyond
`[outMin, outMax]` for signals outside the input range. -/
theorem modulateSignal_linear (signal inMin inMax outMin outMax s1 s2 : ℝ) :
    (inMax ≠ inMin →
      modulateSignal signal inMin inMax outMin outMax =
        outMin + ((signal - inMin) / (inMax - inMin)) * (outMax - outMin))
    ∧ modulateSignal (0 : ℝ) 0 1 outMin outMax = outMin
    ∧ modulateSignal (1 : ℝ) 0 1 outMin outMax = outMax
    ∧ (outMin ≤ outMax → s1 ≤ s2 →
        modulateSignal s1 0 1 outMin outMax ≤ modulateSignal s2 0 1 outMin outMax)
    ∧ (outMin < outMax → 1 < signal →
        outMax < modulateSignal signal 0 1 outMin outMax)
    ∧ (outMin < outMax → signal < 0 →
        modulateSignal signal 0 1 outMin outMax < outMin) := by
  refine ⟨fun _ => rfl, by norm_num [modulateSignal], by norm_num [modulateSignal],
    ?_, ?_, ?_⟩
  · intro hO hs
    simp only [modulateSignal]
    norm_num
    nlinarith
  · intro hO hs
    simp only [modulateSignal]
    norm_num
    nlinarith
  · intro hO hs
    simp only [modulateSignal]
    norm_num
    nlinarith

theorem modulateSignal_linear_witness :
    modulateSignal (2 : ℝ) 0 1 3 5 = 3 + ((2 - 0) / (1 - 0)) * (5 - 3)
    ∧ modulateSignal (0 : ℝ) 0 1 3 5 = 3
    ∧ modulateSignal (1 : ℝ) 0 1 3 5 = 5
    ∧ modulateSignal (0.25 : ℝ) 0 1 3 5 ≤ modulateSignal (0.5 : ℝ) 0 1 3 5
    ∧ 5 < modulateSignal (2 : ℝ) 0 1 3 5
    ∧ modulateSignal (-1 : ℝ) 0 1 3 5 < 3 :=
  ⟨(modulateSignal_linear 2 0 1 3 5 0.25 0.5).1 (by norm_num),
    (modulateSignal_linear 2 0 1 3 5 0.25 0.5).2.1,
    (modulateSignal_linear 2 0 1 3 5 0.25 0.5).2.2.1,
    (modulateSignal_linear 2 0 1 3 5 0.25 0.5).2.2.2.1 (by norm_num) (by norm_num),
    (modulateSignal_linear 2 0 1 3 5 0.25 0.5).2.2.2.2.1 (by norm_num) (by norm_num),
    (modulateSignal_linear (-1) 0 1 3 5 0.25 0.5).2.2.2.2.2 (by norm_num) (by norm_num)⟩

/-- C5: on every morph step the bass feature is shaped by the power `0.8`
and modulated into `[0, 8]` while the treble feature is modulated into
`[0, 4]` with no shaping: `bassFrequency = modulate(b ** 0.8, 0, 1, 0, 8)`
(equal to `8 * b ** 0.8`) and `trebleFrequency = modulate(t, 0, 1, 0, 4)`
(equal to `4 * t`), and the per-vertex morph consumes exactly those two
frequencies. -/
theorem bass_shaping (b t : ℝ) :
    bassFrequencyOf b = modulateSignal (Real.rpow b 0.8) 0 1 0 8
    ∧ trebleFrequencyOf t = modulateSignal t 0 1 0 4
    ∧ bassFrequencyOf b = 8 * Real.rpow b 0.8
    ∧ trebleFrequencyOf t = 4 * t
    ∧ ∀ (noise : ℝ → ℝ → ℝ → ℝ) (time : ℝ) (p : Vec3),
        morphVertexOfFeatures noise b t time p =
          morphVertex noise (modulateSignal (Real.rpow b 0.8) 0 1 0 8)
            (modulateSignal t 0 1 0 4) time p := by
  refine ⟨rfl, rfl, ?_, ?_, fun _ _ _ => rfl⟩
  · rw [bassFrequencyOf]
    simp only [modulateSignal]
    ring
  · rw [trebleFrequencyOf]
    simp only [modulateSignal]
    ring

/-- C2 counterexample: for the length-4 frame the two bands have combined
length 3 = N - 1, not N - 2 as the claim states. -/
theorem split_length_cx :
    ¬ ((bassHalf [255, 255, 255, 255]).length + (trebHalf [255, 255, 255, 255]).length
        = ([255, 255, 255, 255] : List ℕ).length - 2) := by
  decide

/-- C2 amended: for every frame of even length `N ≥ 2` the extractor splits
it into `bass = frame[0 .. N/2-1)` and `treble = frame[N/2-1 .. N-1)`; the
band lengths are `N/2 - 1` and `N/2`, so their combined length is `N - 1`:
only the final sample is excluded, the bands are adjacent and disjoint, and
together they are exactly the first `N - 1` samples. -/
theorem split_bands (frame : List ℕ) (h2 : 2 ≤ frame.length)
    (he : frame.length % 2 = 0) :
    bassHalf frame = frame.take (frame.length / 2 - 1)
    ∧ trebHalf frame =
        (frame.drop (frame.length / 2 - 1)).take
          (frame.length - 1 - (frame.length / 2 - 1))
    ∧ (bassHalf frame).length = frame.length / 2 - 1
    ∧ (trebHalf frame).length = frame.length / 2
    ∧ (bassHalf frame).length + (trebHalf frame).length = frame.length - 1
    ∧ bassHalf frame ++ trebHalf frame = frame.take (frame.length - 1) := by
  refine ⟨rfl, rfl, length_bassHalf frame, length_trebHalf frame h2 he, ?_, ?_⟩
  · rw [length_bassHalf frame, length_trebHalf frame h2 he]
    omega
  · rw [bassHalf, trebHalf, ← List.take_add]
    congr 1
    omega

theorem split_bands_witness :
    (2 ≤ ([1, 2, 3, 4] : List ℕ).length ∧ ([1, 2, 3, 4] : List ℕ).length % 2 = 0)
    ∧ (bassHalf [1, 2, 3, 4] = ([1, 2, 3, 4] : List ℕ).take (([1, 2, 3, 4] : List ℕ).length / 2 - 1)
      ∧ trebHalf [1, 2, 3, 4] =
          (([1, 2, 3, 4] : List ℕ).drop (([1, 2, 3, 4] : List ℕ).length / 2 - 1)).take
            (([1, 2, 3, 4] : List ℕ).length - 1 - (([1, 2, 3, 4] : List ℕ).length / 2 - 1))
      ∧ (bassHalf [1, 2, 3, 4]).length = ([1, 2, 3, 4] : List ℕ).length / 2 - 1
      ∧ (trebHalf [1, 2, 3, 4]).length = ([1, 2, 3, 4] : List ℕ).length / 2
      ∧ (bassHalf [1, 2, 3, 4]).length + (trebHalf [1, 2, 3, 4]).length
          = ([1, 2, 3, 4] : List ℕ).length - 1
      ∧ bassHalf [1, 2, 3, 4] ++ trebHalf [1, 2, 3, 4]
          = ([1, 2, 3, 4] : List ℕ).take (([1, 2, 3, 4] : List ℕ).length - 1)) :=
  ⟨⟨by decide, by decide⟩, split_bands [1, 2, 3, 4] (by decide) (by decide)⟩

/-- C1: one morph step sends a nonzero vertex position `p` to
`distance • d` where `d` is the unit direction obtained by normalizing `p`
and `distance = (6 + bassFrequency) + noiseVal * 5 * trebleFrequency * 2`;
when the distance is nonnegative the new vertex lies at exactly that
distance from the origin, and the step only depends on the direction of
`p`: positively rescaling `p` (an already-displaced position) leaves the
result unchanged, so repeated application does not compound distances. -/
theorem morph_renormalizes (noise : ℝ → ℝ → ℝ → ℝ) (bF tF time : ℝ)
    (p : Vec3) (hp : p ≠ ⟨0, 0, 0⟩) :
    morphVertex noise bF tF time p =
      Vec3.scale (distanceFormula bF tF (noiseAt noise time p.normalize)) p.normalize
    ∧ p.normalize.norm = 1
    ∧ (0 ≤ distanceFormula bF tF (noiseAt noise time p.normalize) →
        (morphVertex noise bF tF time p).norm =
          distanceFormula bF tF (noiseAt noise time p.normalize))
    ∧ ∀ c : ℝ, 0 < c →
        morphVertex noise bF tF time (Vec3.scale c p) =
          morphVertex noise bF tF time p := by
  have hn := Vec3.norm_normalize p hp
  refine ⟨rfl, hn, ?_, ?_⟩
  · intro hD
    rw [morphVertex_eq_scale, Vec3.norm_scale, hn, mul_one, abs_of_nonneg hD]
  · intro c hc
    rw [morphVertex_eq_scale, morphVertex_eq_scale, Vec3.normalize_scale c p hc]

theorem morph_renormalizes_witness :
    ((⟨1, 0, 0⟩ : Vec3) ≠ (⟨0, 0, 0⟩ : Vec3))
    ∧ (morphVertex (fun _ _ _ => 0) 0 0 0 ⟨1, 0, 0⟩ =
        Vec3.scale
          (distanceFormula 0 0 (noiseAt (fun _ _ _ => 0) 0 (Vec3.normalize ⟨1, 0, 0⟩)))
          (Vec3.normalize ⟨1, 0, 0⟩)
      ∧ (Vec3.normalize (⟨1, 0, 0⟩ : Vec3)).norm = 1
      ∧ (0 ≤ distanceFormula 0 0 (noiseAt (fun _ _ _ => 0) 0 (Vec3.normalize ⟨1, 0, 0⟩)) →
          (morphVertex (fun _ _ _ => 0) 0 0 0 ⟨1, 0, 0⟩).norm =
            distanceFormula 0 0 (noiseAt (fun _ _ _ => 0) 0 (Vec3.normalize ⟨1, 0, 0⟩)))
      ∧ ∀ c : ℝ, 0 < c →
          morphVertex (fun _ _ _ => 0) 0 0 0 (Vec3.scale c ⟨1, 0, 0⟩) =
            morphVertex (fun _ _ _ => 0) 0 0 0 ⟨1, 0, 0⟩) :=
  ⟨by simp, morph_renormalizes (fun _ _ _ => 0) 0 0 0 ⟨1, 0, 0⟩ (by simp)⟩

/-- C3 counterexample: for the all-255 frame of length 4 (all samples in
the byte range) both features exceed 1, refuting that they always lie in
`[0, 1]`: the bass feature is `255 / 1 = 255` and the treble feature is
`(255 / 2) / 2 > 1`. -/
theorem features_unit_cx :
    (∀ a ∈ ([255, 255, 255, 255] : List ℕ), a ≤ 255)
    ∧ 1 < bassFeature [255, 255, 255, 255]
    ∧ 1 < trebleFeature [255, 255, 255, 255] := by
  refine ⟨by decide, ?_, ?_⟩
  · norm_num [bassFeature, bassHalf, getMax]
  · norm_num [trebleFeature, trebHalf, getAverage]

/-- C3 amended: for every frame of even length `N ≥ 4` with byte-range
samples, both features are nonnegative and bounded by `255 / bandLength`
(the band lengths being `N/2 - 1` and `N/2`); each feature lies in `[0, 1]`
once its band length reaches 255 — but not in general. -/
theorem features_bounds (frame : List ℕ) (h4 : 4 ≤ frame.length)
    (he : frame.length % 2 = 0) (hb : ∀ a ∈ frame, a ≤ 255) :
    0 ≤ bassFeature frame
    ∧ bassFeature frame ≤ 255 / ((bassHalf frame).length : ℚ)
    ∧ 0 ≤ trebleFeature frame
    ∧ trebleFeature frame ≤ 255 / ((trebHalf frame).length : ℚ)
    ∧ (255 ≤ (bassHalf frame).length → bassFeature frame ≤ 1)
    ∧ (255 ≤ (trebHalf frame).length → trebleFeature frame ≤ 1) := by
  have hbl : 0 < (bassHalf frame).length := by
    rw [length_bassHalf]
    omega
  have htl : 0 < (trebHalf frame).length := by
    rw [length_trebHalf frame (by omega) he]
    omega
  have hblq : (0 : ℚ) < ((bassHalf frame).length : ℚ) := by exact_mod_cast hbl
  have htlq : (0 : ℚ) < ((trebHalf frame).length : ℚ) := by exact_mod_cast htl
  have hbsub : ∀ a ∈ bassHalf frame, a ≤ 255 :=
    fun a ha => hb a (List.take_subset _ _ ha)
  have htsub : ∀ a ∈ trebHalf frame, a ≤ 255 :=
    fun a ha => hb a (List.drop_subset _ _ (List.take_subset _ _ ha))
  have hmax : (getMax (bassHalf frame) : ℚ) ≤ 255 := by
    exact_mod_cast getMax_le (bassHalf frame) 255 hbsub
  have havg : getAverage (trebHalf frame) ≤ 255 := getAverage_le _ 255 htsub
  refine ⟨?_, ?_, ?_, ?_, ?_, ?_⟩
  · rw [bassFeature]
    positivity
  · rw [bassFeature]
    exact div_le_div_of_nonneg_right hmax hblq.le |>.trans_eq rfl
  · rw [trebleFeature]
    exact div_nonneg (getAverage_nonneg _) (le_of_lt htlq)
  · rw [trebleFeature]
    exact div_le_div_of_nonneg_right havg htlq.le |>.trans_eq rfl
  · intro hlen
    rw [bassFeature, div_le_one hblq]
    calc (getMax (bassHalf frame) : ℚ) ≤ 255 := hmax
    _ ≤ ((bassHalf frame).length : ℚ) := by exact_mod_cast hlen
  · intro hlen
    rw [trebleFeature, div_le_one htlq]
    calc getAverage (trebHalf frame) ≤ 255 := havg
    _ ≤ ((trebHalf frame).length : ℚ) := by exact_mod_cast hlen

theorem features_bounds_witness :
    (4 ≤ ([10, 20, 30, 40] : List ℕ).length
      ∧ ([10, 20, 30, 40] : List ℕ).length % 2 = 0
      ∧ ∀ a ∈ ([10, 20, 30, 40] : List ℕ), a ≤ 255)
    ∧ (0 ≤ bassFeature [10, 20, 30, 40]
      ∧ bassFeature [10, 20, 30, 40] ≤ 255 / ((bassHalf [10, 20, 30, 40]).length : ℚ)
      ∧ 0 ≤ trebleFeature [10, 20, 30, 40]
      ∧ trebleFeature [10, 20, 30, 40] ≤ 255 / ((trebHalf [10, 20, 30, 40]).length : ℚ)
      ∧ (255 ≤ (bassHalf [10, 20, 30, 40]).length → bassFeature [10, 20, 30, 40] ≤ 1)
      ∧ (255 ≤ (trebHalf [10, 20, 30, 40]).length → trebleFeature [10, 20, 30, 40] ≤ 1)) :=
  ⟨⟨by decide, by decide, by decide⟩,
    features_bounds [10, 20, 30, 40] (by decide) (by decide) (by decide)⟩

/-- Over `ℚ` the treble channel of `morphMesh` is multiplication by 4. -/
theorem trebleFrequencyOf_eq (t : ℚ) : trebleFrequencyOf t = 4 * t := by
  rw [trebleFrequencyOf]
  simp only [modulateSignal]
  ring

/-- C6 counterexample: the all-255 frame of length 4 does not produce the
maximum configured outputs: its treble output is 510, not 4. -/
theorem saturation_cx :
    (∀ a ∈ ([255, 255, 255, 255] : List ℕ), a ≤ 255)
    ∧ ([255, 255, 255, 255] : List ℕ).length % 2 = 0
    ∧ 2 ≤ ([255, 255, 255, 255] : List ℕ).length
    ∧ trebleFrequencyOf (trebleFeature [255, 255, 255, 255]) ≠ (4 : ℚ) := by
  refine ⟨by decide, by decide, by decide, ?_⟩
  norm_num [trebleFrequencyOf, modulateSignal, trebleFeature, trebHalf, getAverage]

/-- C6 amended: for every even `N ≥ 4`, the all-255 frame yields the
maximal feature values over byte-range frames of the same length, namely
`bassFeature = 255/(N/2 - 1)` and `trebleFeature = 255/(N/2)`; the treble
output is `4 * 255/(N/2)`, which equals the configured maximum 4 exactly
when the treble band length `N/2` is 255 — not for every `N`. -/
theorem saturation (N : ℕ) (h4 : 4 ≤ N) (he : N % 2 = 0) :
    bassFeature (List.replicate N 255) = 255 / ((N / 2 - 1 : ℕ) : ℚ)
    ∧ trebleFeature (List.replicate N 255) = 255 / ((N / 2 : ℕ) : ℚ)
    ∧ (∀ g : List ℕ, g.length = N → (∀ a ∈ g, a ≤ 255) →
        bassFeature g ≤ bassFeature (List.replicate N 255)
        ∧ trebleFeature g ≤ trebleFeature (List.replicate N 255))
    ∧ trebleFrequencyOf (trebleFeature (List.replicate N 255))
        = 4 * (255 / ((N / 2 : ℕ) : ℚ))
    ∧ (trebleFrequencyOf (trebleFeature (List.replicate N 255)) = 4 ↔ N / 2 = 255) := by
  have hksub : 0 < N / 2 - 1 := by omega
  have hk : 0 < N / 2 := by omega
  have hb : bassFeature (List.replicate N 255) = 255 / ((N / 2 - 1 : ℕ) : ℚ) := by
    rw [bassFeature, bassHalf_replicate, getMax_replicate _ _ hksub,
      List.length_replicate]
    norm_num
  have ht : trebleFeature (List.replicate N 255) = 255 / ((N / 2 : ℕ) : ℚ) := by
    rw [trebleFeature, trebHalf_replicate _ _ (by omega) he,
      getAverage_replicate _ _ hk, List.length_replicate]
    norm_num
  have hblq : (0 : ℚ) < ((N / 2 - 1 : ℕ) : ℚ) := by exact_mod_cast hksub
  have htlq : (0 : ℚ) < ((N / 2 : ℕ) : ℚ) := by exact_mod_cast hk
  refine ⟨hb, ht, ?_, ?_, ?_⟩
  · intro g hg hgb
    constructor
    · have hgmax : (getMax (bassHalf g) : ℚ) ≤ 255 := by
        exact_mod_cast getMax_le (bassHalf g) 255
          (fun a ha => hgb a (List.take_subset _ _ ha))
      rw [hb]
      simp only [bassFeature]
      rw [length_bassHalf, hg]
      exact div_le_div_of_nonneg_right hgmax hblq.le |>.trans_eq rfl
    · have hgavg : getAverage (trebHalf g) ≤ 255 :=
        getAverage_le _ 255
          (fun a ha => hgb a (List.drop_subset _ _ (List.take_subset _ _ ha)))
      rw [ht]
      simp only [trebleFeature]
      rw [length_trebHalf g (by rw [hg]; omega) (by rw [hg]; exact he), hg]
      exact div_le_div_of_nonneg_right hgavg htlq.le |>.trans_eq rfl
  · rw [ht, trebleFrequencyOf_eq]
  · rw [ht, trebleFrequencyOf_eq]
    constructor
    · intro h
      have hm : ((N / 2 : ℕ) : ℚ) ≠ 0 := ne_of_gt htlq
      have : (255 : ℚ) = ((N / 2 : ℕ) : ℚ) := by
        field_simp at h
        linarith
      exact_mod_cast this.symm
    · intro h
      rw [h]
      norm_num

theorem saturation_witness :
    (4 ≤ 4 ∧ 4 % 2 = 0)
    ∧ (bassFeature (List.replicate 4 255) = 255 / ((4 / 2 - 1 : ℕ) : ℚ)
      ∧ trebleFeature (List.replicate 4 255) = 255 / ((4 / 2 : ℕ) : ℚ)
      ∧ (∀ g : List ℕ, g.length = 4 → (∀ a ∈ g, a ≤ 255) →
          bassFeature g ≤ bassFeature (List.replicate 4 255)
          ∧ trebleFeature g ≤ trebleFeature (List.replicate 4 255))
      ∧ trebleFrequencyOf (trebleFeature (List.replicate 4 255))
          = 4 * (255 / ((4 / 2 : ℕ) : ℚ))
      ∧ (trebleFrequencyOf (trebleFeature (List.replicate 4 255)) = 4 ↔ 4 / 2 = 255)) :=
  ⟨⟨by decide, by decide⟩, saturation 4 (by decide) (by decide)⟩

/-- C7 counterexample: the length-2 frame satisfies `N ≥ 2` and yet its
bass band is empty, so the per-frame feature computation divides by zero
(`0/0`, NaN in the source); and `modulateSignal` with a zero-width input
range also divides by zero at call time — neither is rejected by any
construction-time guard (no `InvalidSpectrumSize` check exists in the
code). -/
theorem guards_cx :
    2 ≤ ([0, 0] : List ℕ).length
    ∧ (bassHalf [0, 0]).length = 0
    ∧ bassFeatureChecked [0, 0] = none
    ∧ modulateSignalChecked 1 0 0 0 8 = none := by
  refine ⟨by decide, by decide, ?_, ?_⟩
  · simp [bassFeatureChecked, bassHalf]
  · simp [modulateSignalChecked]

/-- C7 amended: no construction-time guard exists; instead, for every frame
of even length `N ≥ 4` both bands are nonempty, so the per-frame feature
divisions are well defined — but at `N = 2` the bass band is empty and the
bass feature is a division by zero.  `modulateSignal` itself divides by
zero exactly when its input range has zero width (`max = min`); nothing
rejects that configuration. -/
theorem guards (frame : List ℕ) (h4 : 4 ≤ frame.length)
    (he : frame.length % 2 = 0) (s min max outMin outMax : ℚ) :
    (bassHalf frame).length ≠ 0
    ∧ (trebHalf frame).length ≠ 0
    ∧ bassFeatureChecked frame = some (bassFeature frame)
    ∧ (modulateSignalChecked s min max outMin outMax = none ↔ max = min) := by
  have hbl : (bassHalf frame).length ≠ 0 := by
    rw [length_bassHalf]
    omega
  have htl : (trebHalf frame).length ≠ 0 := by
    rw [length_trebHalf frame (by omega) he]
    omega
  refine ⟨hbl, htl, ?_, ?_⟩
  · rw [bassFeatureChecked, if_neg hbl]
  · rw [modulateSignalChecked]
    by_cases h : max - min = 0
    · simp [h, sub_eq_zero.mp h]
    · simp [h, sub_ne_zero.mp h]

theorem guards_witness :
    (4 ≤ ([0, 0, 0, 0] : List ℕ).length ∧ ([0, 0, 0, 0] : List ℕ).length % 2 = 0)
    ∧ ((bassHalf [0, 0, 0, 0]).length ≠ 0
      ∧ (trebHalf [0, 0, 0, 0]).length ≠ 0
      ∧ bassFeatureChecked [0, 0, 0, 0] = some (bassFeature [0, 0, 0, 0])
      ∧ (modulateSignalChecked 1 0 1 0 8 = none ↔ (1 : ℚ) = 0)) :=
  ⟨⟨by decide, by decide⟩, guards [0, 0, 0, 0] (by decide) (by decide) 1 0 1 0 8⟩

/-- C8: over any number `k` of ticks during which the playback flag reads
false, the vertex positions — and hence every vertex's radial distance —
are unchanged, while the rotation angles advance by exactly `k` times the
fixed per-tick deltas: `+0.005` on y, `-0.001` on z and `+0.003` on x;
rotation is applied on every tick regardless of playback state. -/
theorem rotation_accumulates (noise : ℝ → ℝ → ℝ → ℝ) (frame : List ℕ)
    (time : ℝ) (s : MeshState) (k : ℕ) :
    ((induceChange false noise frame time)^[k] s).positions = s.positions
    ∧ ((induceChange false noise frame time)^[k] s).rotY = s.rotY + k * 0.005
    ∧ ((induceChange false noise frame time)^[k] s).rotZ = s.rotZ - k * 0.001
    ∧ ((induceChange false noise frame time)^[k] s).rotX = s.rotX + k * 0.003
    ∧ ((induceChange false noise frame time)^[k] s).positions.map Vec3.norm
        = s.positions.map Vec3.norm := by
  induction k with
  | zero => simp
  | succ n ih =>
    obtain ⟨hp, hy, hz, hx, hn⟩ := ih
    have hstep : ∀ t : MeshState, induceChange false noise frame time t = rotateMesh t :=
      fun t => rfl
    rw [Function.iterate_succ_apply', hstep]
    refine ⟨?_, ?_, ?_, ?_, ?_⟩
    · simp only [rotateMesh]
      exact hp
    · simp only [rotateMesh]
      rw [hy]
      push_cast
      ring
    · simp only [rotateMesh]
      rw [hz]
      push_cast
      ring
    · simp only [rotateMesh]
      rw [hx]
      push_cast
      ring
    · simp only [rotateMesh]
      exact hn

/-- C9 counterexample: the all-zero frame of length 2 is a SpectrumFrame
(even length ≥ 2) on which the pipeline does not yield `bassFrequency = 0`:
its bass band is empty, so the bass feature is the division `0 / 0` (NaN in
the source), which propagates through the power curve and the modulation
instead of producing 0. -/
theorem zeros_cx :
    (List.replicate 2 0).length % 2 = 0
    ∧ 2 ≤ (List.replicate 2 0).length
    ∧ (∀ a ∈ List.replicate 2 0, a = 0)
    ∧ bassFeatureChecked (List.replicate 2 0) = none := by
  refine ⟨by decide, by decide, by decide, ?_⟩
  simp [bassFeatureChecked, bassHalf]

/-- C9 amended: for every all-zero frame of even length `N ≥ 4` the
pipeline yields `bassFrequency = 0` and `trebleFrequency = 0`, the noise
term is multiplied by zero, and every nonzero vertex lands at distance
exactly 6 (the base radius) from the origin, whatever the noise field
returns; at `N = 2` the bass band is empty and the bass feature divides by
zero instead. -/
theorem zeros_collapse (N : ℕ) (noise : ℝ → ℝ → ℝ → ℝ) (time : ℝ) (p : Vec3)
    (h4 : 4 ≤ N) (he : N % 2 = 0) (hp : p ≠ ⟨0, 0, 0⟩) :
    bassFeature (List.replicate N 0) = 0
    ∧ trebleFeature (List.replicate N 0) = 0
    ∧ bassFrequencyOf ((bassFeature (List.replicate N 0) : ℚ) : ℝ) = 0
    ∧ trebleFrequencyOf ((trebleFeature (List.replicate N 0) : ℚ) : ℝ) = 0
    ∧ (morphVertexOfFeatures noise ((bassFeature (List.replicate N 0) : ℚ) : ℝ)
        ((trebleFeature (List.replicate N 0) : ℚ) : ℝ) time p).norm = 6 := by
  have hb : bassFeature (List.replicate N 0) = 0 := by
    rw [bassFeature, bassHalf_replicate, getMax_replicate _ _ (by omega)]
    simp
  have ht : trebleFeature (List.replicate N 0) = 0 := by
    rw [trebleFeature, trebHalf_replicate _ _ (by omega) he,
      getAverage_replicate _ _ (by omega)]
    simp
  have h08 : Real.rpow 0 0.8 = (0 : ℝ) := by
    show (0 : ℝ) ^ (0.8 : ℝ) = 0
    exact Real.zero_rpow (by norm_num)
  have hbf : bassFrequencyOf ((0 : ℚ) : ℝ) = 0 := by
    rw [bassFrequencyOf, show ((0 : ℚ) : ℝ) = (0 : ℝ) by norm_num, h08]
    norm_num [modulateSignal]
  have htf : trebleFrequencyOf ((0 : ℚ) : ℝ) = 0 := by
    norm_num [trebleFrequencyOf, modulateSignal]
  refine ⟨hb, ht, ?_, ?_, ?_⟩
  · rw [hb]
    exact hbf
  · rw [ht]
    exact htf
  · rw [morphVertexOfFeatures, hb, ht, hbf, htf, morphVertex_eq_scale,
      Vec3.norm_scale, Vec3.norm_normalize p hp, mul_one]
    have hd : distanceFormula 0 0 (noiseAt noise time p.normalize) = 6 := by
      rw [distanceFormula]
      ring
    rw [hd]
    norm_num

theorem zeros_collapse_witness :
    (4 ≤ 4 ∧ 4 % 2 = 0 ∧ (⟨0, 2, 0⟩ : Vec3) ≠ (⟨0, 0, 0⟩ : Vec3))
    ∧ (bassFeature (List.replicate 4 0) = 0
      ∧ trebleFeature (List.replicate 4 0) = 0
      ∧ bassFrequencyOf ((bassFeature (List.replicate 4 0) : ℚ) : ℝ) = 0
      ∧ trebleFrequencyOf ((trebleFeature (List.replicate 4 0) : ℚ) : ℝ) = 0
      ∧ (morphVertexOfFeatures (fun _ _ _ => 1)
          ((bassFeature (List.replicate 4 0) : ℚ) : ℝ)
          ((trebleFeature (List.replicate 4 0) : ℚ) : ℝ) 0 ⟨0, 2, 0⟩).norm = 6) :=
  ⟨⟨by decide, by decide, by simp⟩,
    zeros_collapse 4 (fun _ _ _ => 1) 0 ⟨0, 2, 0⟩ (by decide) (by decide) (by simp)⟩

/-- C10: every morph step maps a nonzero vertex position `p` to a scalar
multiple of `p` (the new position is collinear with the old one on the line
through the origin), namely `distance • normalize p`; but within the
configured ranges (`bassFrequency ∈ [0, 8]`, `trebleFrequency ∈ [0, 4]`,
`noiseVal ∈ [-1, 1]`) the distance can be negative (e.g. `b = 0`, `t = 4`,
`n = -1` gives `6 - 40 = -34`), in which case the vertex is reflected
through the origin onto the opposite ray, at distance `-distance` along
`-normalize p`. -/
theorem displaced_ray (noise : ℝ → ℝ → ℝ → ℝ) (bF tF time : ℝ) (p : Vec3)
    (hp : p ≠ ⟨0, 0, 0⟩) :
    (∃ c : ℝ, morphVertex noise bF tF time p = Vec3.scale c p)
    ∧ morphVertex noise bF tF time p =
        Vec3.scale (distanceFormula bF tF (noiseAt noise time p.normalize)) p.normalize
    ∧ (∃ b t n : ℝ, 0 ≤ b ∧ b ≤ 8 ∧ 0 ≤ t ∧ t ≤ 4 ∧ -1 ≤ n ∧ n ≤ 1 ∧
        distanceFormula b t n < 0)
    ∧ (distanceFormula bF tF (noiseAt noise time p.normalize) < 0 →
        (morphVertex noise bF tF time p).norm =
          -(distanceFormula bF tF (noiseAt noise time p.normalize))
        ∧ morphVertex noise bF tF time p =
            Vec3.scale (-(distanceFormula bF tF (noiseAt noise time p.normalize)))
              (Vec3.scale (-1) p.normalize)) := by
  refine ⟨?_, rfl, ?_, ?_⟩
  · refine ⟨distanceFormula bF tF (noiseAt noise time p.normalize) * p.norm⁻¹, ?_⟩
    rw [morphVertex_eq_scale, Vec3.normalize, Vec3.scale_scale]
  · refine ⟨0, 4, -1, by norm_num, by norm_num, by norm_num, by norm_num,
      by norm_num, by norm_num, ?_⟩
    rw [distanceFormula, amplitude]
    norm_num
  · intro hD
    constructor
    · rw [morphVertex_eq_scale, Vec3.norm_scale, Vec3.norm_normalize p hp,
        mul_one, abs_of_neg hD]
    · rw [morphVertex_eq_scale, Vec3.scale_scale]
      congr 1
      ring

theorem displaced_ray_witness :
    ((⟨2, 0, 0⟩ : Vec3) ≠ (⟨0, 0, 0⟩ : Vec3)
      ∧ distanceFormula 0 4 (noiseAt (fun _ _ _ => -1) 0 (Vec3.normalize ⟨2, 0, 0⟩)) < 0)
    ∧ (morphVertex (fun _ _ _ => -1) 0 4 0 ⟨2, 0, 0⟩).norm =
        -(distanceFormula 0 4 (noiseAt (fun _ _ _ => -1) 0 (Vec3.normalize ⟨2, 0, 0⟩))) :=
  ⟨⟨by simp, by norm_num [distanceFormula, noiseAt, amplitude]⟩,
    ((displaced_ray (fun _ _ _ => -1) 0 4 0 ⟨2, 0, 0⟩ (by simp)).2.2.2
      (by norm_num [distanceFormula, noiseAt, amplitude])).1⟩

end AudioVis
